import Mathlib

/-!
Shallow embedding of `skbio/diversity/_driver.py` (scikit-bio diversity driver):
the alpha/beta diversity dispatch engine, the restricted pairwise computer
`_partial_pw`, and the surrounding metric-resolution logic.

Sample identifiers are a generic type with decidable equality (instantiated at
`Nat` or `String` in concrete computations); a row of the counts matrix is a
generic type `ρ`; the numeric carrier for distances (floats in the original)
is a generic additive commutative monoid `V`; metric keyword arguments are a
generic type `κ` (structured as `Kwargs` on the driver paths that inspect
them).  Fallible Python code (raising `ValueError`) is modelled with
`Except String`.
-/

set_option linter.unusedSectionVars false
set_option linter.unusedVariables false

deriving instance DecidableEq for Except

namespace SkbioDriver

variable {α : Type} [DecidableEq α] [Inhabited α]
variable {ρ : Type} [Inhabited ρ]
variable {κ : Type}
variable {V : Type} [AddCommMonoid V]

/-- A `metric` argument on the pairwise path: either a name string (as passed
through to the backend) or a callable taking two rows and keyword args. -/
inductive MetricArg (V ρ κ : Type) where
  | str (s : String)
  | fn (f : ρ → ρ → κ → V)

/-- Helper for `idIndex`: walks the list with the running position `i`,
keeping the position of the last occurrence of `x` seen so far in `acc`
(mirrors the Python dict comprehension
`{id_: idx for idx, id_ in enumerate(ids)}`, where a later duplicate key
overwrites an earlier one). -/
def idIndexAux (l : List α) (x : α) (i acc : Nat) : Nat :=
  match l with
  | [] => acc
  | a :: t => idIndexAux t x (i + 1) (if a = x then i else acc)

/-- Embedding of the `id_index` dict of `_partial_pw`: the row index of the
identifier `x` in `ids` (position of the last occurrence; 0 if absent). -/
def idIndex (l : List α) (x : α) : Nat :=
  idIndexAux l x 0 0

/-- Row-major upper-triangle (diagonal excluded) extraction of an `n × n`
matrix, as performed by `scipy.spatial.distance.squareform` on a square
matrix: the entries `M i j` for `i < j < n`, with `i` outermost. -/
def condensedOf (n : Nat) (M : Nat → Nat → V) : List V :=
  (List.range n).flatMap fun i =>
    (List.range' (i + 1) (n - (i + 1))).map fun j => M i j

/-- The dense zero-initialized square matrix filled by the loop of
`_partial_pw`: for each pair `(u, v)` of `idPairs` in order, the cell
`(id_index[u], id_index[v])` is set to `metric(counts[u_idx], counts[v_idx],
**kwargs)`; all other cells stay 0. -/
def buildDM (ids0 : List α) (idPairs : List (α × α)) (counts : List ρ)
    (f : ρ → ρ → κ → V) (kw : κ) : Nat → Nat → V :=
  idPairs.foldl
    (fun dm p => fun i j =>
      if i = idIndex ids0 p.1 ∧ j = idIndex ids0 p.2 then
        f (counts.getD (idIndex ids0 p.1) default)
          (counts.getD (idIndex ids0 p.2) default) kw
      else dm i j)
    (fun _ _ => 0)

/-- The duplicated list that `_partial_pw` hashes: the pairs together with
their reverses (`{i for i in id_pairs}.union({i[::-1] for i in id_pairs})`
before taking the set). -/
def pairsWithReverses (idPairs : List (α × α)) : List (α × α) :=
  idPairs ++ idPairs.map Prod.swap

/-- Embedding of `_partial_pw(ids, id_pairs, counts, metric, **kwargs)`:
the restricted pairwise computer.  Checks, in source order: `ids` given;
every identifier of `id_pairs` a member of `ids`; the set of pairs plus
reversed pairs has exactly twice as many elements as `id_pairs`; `metric`
not a string.  Then fills the dense matrix and returns the condensed form
of `dm + dm.T`. -/
def partialPw (ids : Option (List α)) (idPairs : List (α × α)) (counts : List ρ)
    (metric : MetricArg V ρ κ) (kw : κ) : Except String (List V) :=
  match ids with
  | none => .error "`ids` must be specified if `id_pairs` is specified"
  | some ids0 =>
    if ∀ p ∈ idPairs, p.1 ∈ ids0 ∧ p.2 ∈ ids0 then
      if (pairsWithReverses idPairs).toFinset.card = 2 * idPairs.length then
        match metric with
        | .str _ => .error "`metric` must be callable"
        | .fn f =>
          let dm := buildDM ids0 idPairs counts f kw
          .ok (condensedOf ids0.length (fun i j => dm i j + dm j i))
      else .error "Duplicate ID pairs observed."
    else .error "`id_pairs` are not a subset of `ids`"

/-- Modelled from the spec: the default all-pairs condensed-distance backend
(`scipy.spatial.distance.pdist`, which is external to the repository; the
spec's §6 "Pairwise backend" contract: a condensed vector of length
`n*(n-1)/2` in standard row-major upper-triangle order, i.e.
`metric(X[i], X[j])` for `i < j`). -/
def pdist (counts : List ρ) (f : ρ → ρ → κ → V) (kw : κ) : List V :=
  condensedOf counts.length fun i j =>
    f (counts.getD i default) (counts.getD j default) kw

-- simple checks that the embedding computes
example : (partialPw (V := ℤ) (κ := Unit) (some [0, 1]) [(0, 1)] [(5 : ℤ), 7]
    (.fn fun a b _ => a + b) ()) = .ok [12] := by decide

example : (partialPw (V := ℤ) (κ := Unit) (some [0, 1]) [((1 : ℕ), 0)] [(5 : ℤ), 7]
    (.fn fun a _ _ => a) ()) = .ok [7] := by decide

example : (partialPw (V := ℤ) (κ := Unit) (some [0, 1]) [(0, 1), (1, 0)] [(5 : ℤ), 7]
    (.fn fun a b _ => a + b) ()) = .error "Duplicate ID pairs observed." := by decide

example : (pdist (V := ℤ) (κ := Unit) [(5 : ℤ), 7] (fun a _ _ => a) ()) = [5] := by decide

lemma idIndexAux_of_not_mem {l : List α} {x : α} (h : x ∉ l) :
    ∀ i acc, idIndexAux l x i acc = acc := by
  induction l with
  | nil => intro i acc; rfl
  | cons a t ih =>
    intro i acc
    have hax : ¬(a = x) := fun he => h (he ▸ List.mem_cons_self a t)
    have ht : x ∉ t := fun hx => h (List.mem_cons_of_mem a hx)
    simp only [idIndexAux, if_neg hax]
    exact ih ht (i + 1) acc

lemma idIndexAux_get {l : List α} (hnd : l.Nodup) :
    ∀ {k : Nat} (hk : k < l.length) {x : α}, l.get ⟨k, hk⟩ = x →
      ∀ i acc, idIndexAux l x i acc = i + k := by
  induction l with
  | nil => intro k hk; exact absurd hk (by simp)
  | cons a t ih =>
    intro k hk x hx i acc
    rcases List.nodup_cons.mp hnd with ⟨hat, hndt⟩
    match k with
    | 0 =>
      have hax : a = x := hx
      have hxt : x ∉ t := hax ▸ hat
      simp only [idIndexAux, if_pos hax]
      rw [idIndexAux_of_not_mem hxt]
      omega
    | Nat.succ k' =>
      have hk' : k' < t.length := by simpa using hk
      have hxget : t.get ⟨k', hk'⟩ = x := hx
      have hxt : x ∈ t := hxget ▸ List.get_mem t k' hk'
      have hax : ¬(a = x) := fun he => hat (he ▸ hxt)
      simp only [idIndexAux, if_neg hax]
      rw [ih hndt hk' hxget (i + 1) acc]
      omega

lemma idIndex_get {l : List α} (hnd : l.Nodup) {k : Nat} (hk : k < l.length) :
    idIndex l (l.get ⟨k, hk⟩) = k := by
  unfold idIndex
  rw [idIndexAux_get hnd hk rfl 0 0]
  omega

lemma idIndex_lt {l : List α} (hnd : l.Nodup) {x : α} (hx : x ∈ l) :
    idIndex l x < l.length := by
  obtain ⟨⟨k, hk⟩, hget⟩ := List.mem_iff_get.mp hx
  unfold idIndex
  rw [idIndexAux_get hnd hk hget 0 0]
  simpa using hk

lemma get_idIndex {l : List α} (hnd : l.Nodup) {x : α} (hx : x ∈ l)
    (h : idIndex l x < l.length) : l.get ⟨idIndex l x, h⟩ = x := by
  obtain ⟨⟨k, hk⟩, hget⟩ := List.mem_iff_get.mp hx
  have : idIndex l x = k := by
    unfold idIndex; rw [idIndexAux_get hnd hk hget 0 0]; omega
  subst hget
  exact congrArg l.get (Fin.ext this)

lemma buildDM_apply (ids0 : List α) (idPairs : List (α × α)) (counts : List ρ)
    (f : ρ → ρ → κ → V) (kw : κ) (i j : Nat) :
    buildDM ids0 idPairs counts f kw i j =
      if ∃ p ∈ idPairs, idIndex ids0 p.1 = i ∧ idIndex ids0 p.2 = j then
        f (counts.getD i default) (counts.getD j default) kw
      else 0 := by
  suffices h : ∀ (dm0 : Nat → Nat → V),
      (idPairs.foldl
        (fun dm p => fun i j =>
          if i = idIndex ids0 p.1 ∧ j = idIndex ids0 p.2 then
            f (counts.getD (idIndex ids0 p.1) default)
              (counts.getD (idIndex ids0 p.2) default) kw
          else dm i j)
        dm0) i j =
      if ∃ p ∈ idPairs, idIndex ids0 p.1 = i ∧ idIndex ids0 p.2 = j then
        f (counts.getD i default) (counts.getD j default) kw
      else dm0 i j by
    exact h (fun _ _ => 0)
  induction idPairs with
  | nil => intro dm0; simp
  | cons p t ih =>
    intro dm0
    rw [List.foldl_cons, ih]
    by_cases hq : ∃ q ∈ t, idIndex ids0 q.1 = i ∧ idIndex ids0 q.2 = j
    · rw [if_pos hq, if_pos]
      obtain ⟨q, hqt, hq1, hq2⟩ := hq
      exact ⟨q, List.mem_cons_of_mem p hqt, hq1, hq2⟩
    · rw [if_neg hq]
      by_cases hp : i = idIndex ids0 p.1 ∧ j = idIndex ids0 p.2
      · rw [if_pos hp, if_pos, ← hp.1, ← hp.2]
        exact ⟨p, List.mem_cons_self p t, hp.1.symm, hp.2.symm⟩
      · rw [if_neg hp, if_neg]
        rintro ⟨q, hqmem, hq1, hq2⟩
        rcases List.mem_cons.mp hqmem with rfl | hqt
        · exact hp ⟨hq1.symm, hq2.symm⟩
        · exact hq ⟨q, hqt, hq1, hq2⟩

lemma condensedOf_congr {n : Nat} {M N : Nat → Nat → V}
    (h : ∀ i j, i < n → i < j → j < n → M i j = N i j) :
    condensedOf n M = condensedOf n N := by
  unfold condensedOf
  apply List.flatMap_congr
  intro i hi
  apply List.map_congr_left
  intro j hj
  have hi' : i < n := List.mem_range.mp hi
  have hj' := List.mem_range'_1.mp hj
  exact h i j hi' (by omega) (by omega)

lemma card_of_nodup_pairs {idPairs : List (α × α)}
    (h : (pairsWithReverses idPairs).Nodup) :
    (pairsWithReverses idPairs).toFinset.card = 2 * idPairs.length := by
  rw [List.toFinset_card_of_nodup h]
  unfold pairsWithReverses
  rw [List.length_append, List.length_map]
  omega

lemma nodup_pairs_of_card {idPairs : List (α × α)}
    (h : (pairsWithReverses idPairs).toFinset.card = 2 * idPairs.length) :
    (pairsWithReverses idPairs).Nodup := by
  have hlen : (pairsWithReverses idPairs).length = 2 * idPairs.length := by
    unfold pairsWithReverses
    rw [List.length_append, List.length_map]
    omega
  have hcard : (pairsWithReverses idPairs).dedup.length =
      (pairsWithReverses idPairs).length := by
    rw [← List.card_toFinset, h, hlen]
  have := List.Sublist.eq_of_length (List.dedup_sublist _) hcard
  exact List.dedup_eq_self.mp this

lemma swap_ne_self_of_ne {p : α × α} (h : p.1 ≠ p.2) : p.swap ≠ p := by
  intro he
  have h1 : p.2 = p.1 := by simpa using congrArg Prod.fst he
  exact h h1.symm

/-- The pair-distinctness discipline of a valid restricted pair set: no two
entries are equal or mutually reversed. -/
abbrev PairwiseDistinct (idPairs : List (α × α)) : Prop :=
  idPairs.Pairwise fun p q => p ≠ q ∧ p ≠ q.swap

lemma pairwiseDistinct_symm :
    Symmetric (fun p q : α × α => p ≠ q ∧ p ≠ q.swap) := by
  rintro p q ⟨h1, h2⟩
  refine ⟨h1.symm, fun he => h2 ?_⟩
  rw [he, Prod.swap_swap]

lemma nodup_pairsWithReverses {idPairs : List (α × α)}
    (hpw : PairwiseDistinct idPairs)
    (hself : ∀ p ∈ idPairs, p.1 ≠ p.2) :
    (pairsWithReverses idPairs).Nodup := by
  have hnd : idPairs.Nodup := List.Pairwise.imp (fun h => h.1) hpw
  rw [pairsWithReverses, List.nodup_append]
  refine ⟨hnd, hnd.map Prod.swap_injective, ?_⟩
  intro x hx hxs
  obtain ⟨q, hq, hqx⟩ := List.mem_map.mp hxs
  by_cases hxq : x = q
  · subst hxq
    exact swap_ne_self_of_ne (hself x hx) hqx
  · have := (List.Pairwise.forall pairwiseDistinct_symm hpw hx hq hxq).2
    exact this (hqx.symm)

lemma not_mem_swap_of_pairwiseDistinct {idPairs : List (α × α)}
    (hpw : PairwiseDistinct idPairs)
    {a b : α} (hab : a ≠ b) (h : (a, b) ∈ idPairs) : (b, a) ∉ idPairs := by
  intro hba
  have hne : (a, b) ≠ (b, a) := by
    intro he
    exact hab (congrArg Prod.fst he)
  have := (List.Pairwise.forall pairwiseDistinct_symm hpw h hba hne).2
  exact this rfl

lemma exists_pair_at_iff {ids0 : List α} (hnd : ids0.Nodup) {idPairs : List (α × α)}
    (hsub : ∀ p ∈ idPairs, p.1 ∈ ids0 ∧ p.2 ∈ ids0)
    {i j : Nat} (hi : i < ids0.length) (hj : j < ids0.length) :
    (∃ p ∈ idPairs, idIndex ids0 p.1 = i ∧ idIndex ids0 p.2 = j) ↔
      (ids0.get ⟨i, hi⟩, ids0.get ⟨j, hj⟩) ∈ idPairs := by
  constructor
  · rintro ⟨p, hp, h1, h2⟩
    obtain ⟨hm1, hm2⟩ := hsub p hp
    subst h1
    subst h2
    rw [get_idIndex hnd hm1 hi, get_idIndex hnd hm2 hj]
    simpa using hp
  · intro h
    exact ⟨(ids0.get ⟨i, hi⟩, ids0.get ⟨j, hj⟩), h,
      idIndex_get hnd hi, idIndex_get hnd hj⟩

lemma partialPw_ok {ids0 : List α} {idPairs : List (α × α)} {counts : List ρ}
    {f : ρ → ρ → κ → V} {kw : κ}
    (hsub : ∀ p ∈ idPairs, p.1 ∈ ids0 ∧ p.2 ∈ ids0)
    (hcard : (pairsWithReverses idPairs).toFinset.card = 2 * idPairs.length) :
    partialPw (some ids0) idPairs counts (.fn f) kw =
      .ok (condensedOf ids0.length fun i j =>
        buildDM ids0 idPairs counts f kw i j +
          buildDM ids0 idPairs counts f kw j i) := by
  unfold partialPw
  dsimp only
  rw [if_pos hsub, if_pos hcard]

/-- C2 counterexample apparatus: the matrix-filling procedure as the claim
words it, with the metric value written into BOTH the `(u,v)` and `(v,u)`
cells of the zero-initialized square matrix, and the condensed output still
obtained by adding the matrix to its transpose and extracting the upper
triangle. -/
def claimBothCellsOutput (ids0 : List α) (idPairs : List (α × α)) (counts : List ρ)
    (f : ρ → ρ → κ → V) (kw : κ) : List V :=
  let dm := idPairs.foldl
    (fun dm p => fun i j =>
      if (i = idIndex ids0 p.1 ∧ j = idIndex ids0 p.2) ∨
          (i = idIndex ids0 p.2 ∧ j = idIndex ids0 p.1) then
        f (counts.getD (idIndex ids0 p.1) default)
          (counts.getD (idIndex ids0 p.2) default) kw
      else dm i j)
    (fun _ _ => 0)
  condensedOf ids0.length fun i j => dm i j + dm j i

/-- C2 (amended): on a valid restricted pair set, `_partial_pw` returns the
condensed vector whose `(i, j)` entry (for `i < j`) is the metric value when
`(ids[i], ids[j])` is a listed pair (in that orientation), the reversed
metric value when `(ids[j], ids[i])` is listed, and 0 when the unordered
pair was not requested: the single-cell write at `(u, v)` plus the
`dm + dm.T` fold places each computed value in both orientations without
doubling it. -/
theorem partialPw_entries_characterization
    {ids0 : List α} {idPairs : List (α × α)} {counts : List ρ}
    {f : ρ → ρ → κ → V} {kw : κ}
    (hnd : ids0.Nodup)
    (hsub : ∀ p ∈ idPairs, p.1 ∈ ids0 ∧ p.2 ∈ ids0)
    (hself : ∀ p ∈ idPairs, p.1 ≠ p.2)
    (hpw : PairwiseDistinct idPairs) :
    partialPw (some ids0) idPairs counts (.fn f) kw =
      .ok (condensedOf ids0.length fun i j =>
        (if (ids0.getD i default, ids0.getD j default) ∈ idPairs then
          f (counts.getD i default) (counts.getD j default) kw else 0) +
        (if (ids0.getD j default, ids0.getD i default) ∈ idPairs then
          f (counts.getD j default) (counts.getD i default) kw else 0)) := by
  rw [partialPw_ok hsub (card_of_nodup_pairs (nodup_pairsWithReverses hpw hself))]
  congr 1
  apply condensedOf_congr
  intro i j hi hij hj
  have e1 : ids0.getD i default = ids0.get ⟨i, hi⟩ := by
    rw [List.getD_eq_getElem ids0 default hi, List.get_eq_getElem]
  have e2 : ids0.getD j default = ids0.get ⟨j, hj⟩ := by
    rw [List.getD_eq_getElem ids0 default hj, List.get_eq_getElem]
  rw [buildDM_apply, buildDM_apply, e1, e2]
  rw [if_congr (exists_pair_at_iff hnd hsub hi hj) rfl rfl,
    if_congr (exists_pair_at_iff hnd hsub hj hi) rfl rfl]

/-- C2 counterexample: with ids `[0, 1]`, the single pair `(0, 1)` and the
constant metric 1, the code returns `[1]` while the claimed procedure
(write both cells, then add the transpose) would return `[2]`. -/
theorem partialPw_both_cells_counterexample :
    partialPw (V := ℤ) (κ := Unit) (some [(0 : ℕ), 1]) [(0, 1)] [(0 : ℤ), 0]
      (.fn fun _ _ _ => 1) () ≠
    .ok (claimBothCellsOutput (V := ℤ) (κ := Unit) [(0 : ℕ), 1] [(0, 1)]
      [(0 : ℤ), 0] (fun _ _ _ => 1) ()) := by decide

/-- C2 witness: a concrete valid restricted computation where the
characterization theorem applies. -/
theorem partialPw_entries_characterization_witness :
    partialPw (V := ℤ) (κ := Unit) (some [(0 : ℕ), 1, 2]) [(0, 1)] [(5 : ℤ), 7, 9]
      (.fn fun a b _ => a + b) () =
      .ok (condensedOf 3 fun i j =>
        (if (([(0 : ℕ), 1, 2]).getD i default, ([(0 : ℕ), 1, 2]).getD j default) ∈
            [((0 : ℕ), 1)] then
          (([(5 : ℤ), 7, 9]).getD i default) + (([(5 : ℤ), 7, 9]).getD j default) else 0) +
        (if (([(0 : ℕ), 1, 2]).getD j default, ([(0 : ℕ), 1, 2]).getD i default) ∈
            [((0 : ℕ), 1)] then
          (([(5 : ℤ), 7, 9]).getD j default) + (([(5 : ℤ), 7, 9]).getD i default) else 0)) :=
  partialPw_entries_characterization (by decide) (by decide) (by decide) (by decide)

/-- C1 (amended): when `id_pairs` lists every unordered pair over `ids`
exactly once (in either orientation) and the metric is symmetric in its two
row arguments, the condensed vector computed by `_partial_pw` equals the one
produced by the default all-pairs backend on the same counts matrix. -/
theorem partialPw_full_pairs_eq_pdist
    {ids0 : List α} {idPairs : List (α × α)} {counts : List ρ}
    {f : ρ → ρ → κ → V} {kw : κ}
    (hnd : ids0.Nodup)
    (hpw : PairwiseDistinct idPairs)
    (hfull : ∀ a b, ((a, b) ∈ idPairs ∨ (b, a) ∈ idPairs) ↔
      (a ∈ ids0 ∧ b ∈ ids0 ∧ a ≠ b))
    (hsymm : ∀ a b k, f a b k = f b a k)
    (hlen : counts.length = ids0.length) :
    partialPw (some ids0) idPairs counts (.fn f) kw = .ok (pdist counts f kw) := by
  have hsub : ∀ p ∈ idPairs, p.1 ∈ ids0 ∧ p.2 ∈ ids0 := by
    intro p hp
    have := (hfull p.1 p.2).mp (Or.inl (by simpa using hp))
    exact ⟨this.1, this.2.1⟩
  have hself : ∀ p ∈ idPairs, p.1 ≠ p.2 := by
    intro p hp
    exact ((hfull p.1 p.2).mp (Or.inl (by simpa using hp))).2.2
  rw [partialPw_ok hsub (card_of_nodup_pairs (nodup_pairsWithReverses hpw hself))]
  unfold pdist
  rw [hlen]
  congr 1
  apply condensedOf_congr
  intro i j hi hij hj
  have hab : ids0.get ⟨i, hi⟩ ≠ ids0.get ⟨j, hj⟩ := by
    intro he
    have := (hnd.get_inj_iff).mp he
    exact absurd (congrArg Fin.val this) (by simpa using Nat.ne_of_lt hij)
  have hor := (hfull (ids0.get ⟨i, hi⟩) (ids0.get ⟨j, hj⟩)).mpr
    ⟨List.get_mem ids0 i hi, List.get_mem ids0 j hj, hab⟩
  rw [buildDM_apply, buildDM_apply]
  rw [if_congr (exists_pair_at_iff hnd hsub hi hj) rfl rfl,
    if_congr (exists_pair_at_iff hnd hsub hj hi) rfl rfl]
  rcases hor with h1 | h2
  · rw [if_pos h1, if_neg (not_mem_swap_of_pairwiseDistinct hpw hab h1), add_zero]
  · rw [if_neg (not_mem_swap_of_pairwiseDistinct hpw hab.symm h2), if_pos h2,
      zero_add, hsymm]

/-- C1 counterexample: the claim as stated quantifies over every callable
metric and every list representation of the full unordered pair set.  With
ids `[0, 1]`, the full pair set represented as `[(1, 0)]` and the
asymmetric metric `f a b = a`, `_partial_pw` returns `[7]` (it evaluates
`f(counts[1], counts[0])`) while the all-pairs backend returns `[5]`
(`f(counts[0], counts[1])`). -/
theorem partialPw_full_pairs_asymmetric_counterexample :
    partialPw (V := ℤ) (κ := Unit) (some [(0 : ℕ), 1]) [(1, 0)] [(5 : ℤ), 7]
      (.fn fun a _ _ => a) () ≠
    .ok (pdist (V := ℤ) (κ := Unit) [(5 : ℤ), 7] (fun a _ _ => a) ()) := by decide

/-- C1 witness: the agreement theorem applied at a concrete full pair set
with a symmetric metric. -/
theorem partialPw_full_pairs_eq_pdist_witness :
    partialPw (V := ℤ) (κ := Unit) (some [(0 : ℕ), 1]) [(0, 1)] [(5 : ℤ), 7]
      (.fn fun a b _ => a + b) () =
      .ok (pdist (V := ℤ) (κ := Unit) [(5 : ℤ), 7] (fun a b _ => a + b) ()) :=
  partialPw_full_pairs_eq_pdist (by decide) (by decide)
    (by
      intro a b
      simp only [List.mem_singleton, List.mem_cons, List.not_mem_nil, or_false,
        Prod.mk.injEq]
      omega)
    (fun a b _ => add_comm a b) rfl

/-- C6: if `id_pairs` contains the same unordered pair twice, in either
orientation, then `_partial_pw` fails with an input error (the hash-set of
pairs plus reverses is smaller than twice the pair count). -/
theorem partialPw_duplicate_pair_error
    (ids : Option (List α)) (idPairs : List (α × α)) (counts : List ρ)
    (metric : MetricArg V ρ κ) (kw : κ)
    (hdup : ∃ (i j : Nat) (hi : i < idPairs.length) (hj : j < idPairs.length),
      i ≠ j ∧ (idPairs.get ⟨i, hi⟩ = idPairs.get ⟨j, hj⟩ ∨
        idPairs.get ⟨i, hi⟩ = (idPairs.get ⟨j, hj⟩).swap)) :
    ∃ e, partialPw ids idPairs counts metric kw = .error e := by
  obtain ⟨i, j, hi, hj, hij, hd⟩ := hdup
  cases ids with
  | none => exact ⟨_, rfl⟩
  | some ids0 =>
    unfold partialPw
    dsimp only
    by_cases hsub : ∀ p ∈ idPairs, p.1 ∈ ids0 ∧ p.2 ∈ ids0
    · rw [if_pos hsub]
      have hcard : ¬((pairsWithReverses idPairs).toFinset.card =
          2 * idPairs.length) := by
        intro hc
        have hnodup := nodup_pairs_of_card hc
        rw [pairsWithReverses, List.nodup_append] at hnodup
        obtain ⟨h1, _, hdisj⟩ := hnodup
        rcases hd with heq | hswap
        · have := (h1.get_inj_iff).mp heq
          exact hij (congrArg Fin.val this)
        · have hmi : idPairs.get ⟨i, hi⟩ ∈ idPairs := List.get_mem _ _ _
          have hmj : idPairs.get ⟨j, hj⟩ ∈ idPairs := List.get_mem _ _ _
          apply hdisj hmi
          rw [hswap]
          exact List.mem_map_of_mem Prod.swap hmj
      rw [if_neg hcard]
      exact ⟨_, rfl⟩
    · rw [if_neg hsub]
      exact ⟨_, rfl⟩

/-- C6 witness: the claim's own example, `id_pairs = [('a','b'), ('b','a')]`. -/
theorem partialPw_duplicate_pair_error_witness :
    ∃ e, partialPw (V := ℤ) (κ := Unit) (some ["a", "b"])
      [("a", "b"), ("b", "a")] [(0 : ℤ), 0] (.fn fun _ _ _ => 0) () = .error e :=
  partialPw_duplicate_pair_error _ _ _ _ _
    ⟨0, 1, by decide, by decide, by decide, Or.inr (by decide)⟩

/-- C7: a self-pair such as `('a', 'a')` in `id_pairs` makes `_partial_pw`
fail with an input error (the pair equals its own reverse, so the hash-set
of pairs plus reverses is smaller than twice the pair count). -/
theorem partialPw_self_pair_error
    (ids : Option (List α)) (idPairs : List (α × α)) (counts : List ρ)
    (metric : MetricArg V ρ κ) (kw : κ)
    (hself : ∃ a, (a, a) ∈ idPairs) :
    ∃ e, partialPw ids idPairs counts metric kw = .error e := by
  obtain ⟨a, ha⟩ := hself
  cases ids with
  | none => exact ⟨_, rfl⟩
  | some ids0 =>
    unfold partialPw
    dsimp only
    by_cases hsub : ∀ p ∈ idPairs, p.1 ∈ ids0 ∧ p.2 ∈ ids0
    · rw [if_pos hsub]
      have hcard : ¬((pairsWithReverses idPairs).toFinset.card =
          2 * idPairs.length) := by
        intro hc
        have hnodup := nodup_pairs_of_card hc
        rw [pairsWithReverses, List.nodup_append] at hnodup
        obtain ⟨_, _, hdisj⟩ := hnodup
        apply hdisj ha
        exact List.mem_map_of_mem Prod.swap ha
      rw [if_neg hcard]
      exact ⟨_, rfl⟩
    · rw [if_neg hsub]
      exact ⟨_, rfl⟩

/-- C7 witness: a concrete self-pair is rejected. -/
theorem partialPw_self_pair_error_witness :
    ∃ e, partialPw (V := ℤ) (κ := Unit) (some ["a"]) [("a", "a")] [(0 : ℤ)]
      (.fn fun _ _ _ => 0) () = .error e :=
  partialPw_self_pair_error _ _ _ _ _ ⟨"a", by decide⟩

/-- C8: whenever the metric handed to `_partial_pw` is a name string rather
than a callable, the call fails with an input error; no pairwise computation
is possible on this path. -/
theorem partialPw_string_metric_error
    (ids : Option (List α)) (idPairs : List (α × α)) (counts : List ρ)
    (s : String) (kw : κ) :
    ∃ e, partialPw (V := V) ids idPairs counts (.str s) kw = .error e := by
  cases ids with
  | none => exact ⟨_, rfl⟩
  | some ids0 =>
    unfold partialPw
    dsimp only
    by_cases hsub : ∀ p ∈ idPairs, p.1 ∈ ids0 ∧ p.2 ∈ ids0
    · rw [if_pos hsub]
      by_cases hcard : (pairsWithReverses idPairs).toFinset.card =
          2 * idPairs.length
      · rw [if_pos hcard]
        exact ⟨_, rfl⟩
      · rw [if_neg hcard]
        exact ⟨_, rfl⟩
    · rw [if_neg hsub]
      exact ⟨_, rfl⟩

variable {τ σ γ β : Type}

/-- Python `**kwargs` as seen by the driver: the keyword slots the driver
itself inspects (`otu_ids`, `tree`, `normalized`), plus an opaque remainder
threaded through to the metric. -/
structure Kwargs (τ σ γ : Type) where
  otuIds : Option σ
  tree : Option τ
  normalized : Option Bool
  extra : Option γ

/-- The empty keyword dict (after `kwargs = {}` on the callable branch). -/
def emptyKwargs : Kwargs τ σ γ := ⟨none, none, none, none⟩

/-- Modelled from the spec: `_get_phylogenetic_kwargs` lives in
`skbio/diversity/_util.py`, outside the provided source.  Per §6, it pops
`otu_ids` and `tree` from the keyword dict, failing when either required
keyword is missing, and returns them with the remaining kwargs. -/
def getPhylogeneticKwargs (kw : Kwargs τ σ γ) :
    Except String (σ × τ × Kwargs τ σ γ) :=
  match kw.otuIds, kw.tree with
  | some o, some t => .ok (o, t, { kw with otuIds := none, tree := none })
  | none, _ => .error "otu_ids is required for phylogenetic diversity metrics"
  | some _, none => .error "tree is required for phylogenetic diversity metrics"

/-- The keys of `_get_alpha_diversity_metric_map()`, in source order. -/
def alphaMetricNames : List String :=
  ["ace", "chao1", "chao1_ci", "berger_parker_d", "brillouin_d", "dominance",
   "doubles", "enspie", "esty_ci", "faith_pd", "fisher_alpha", "goods_coverage",
   "heip_e", "kempton_taylor_q", "margalef", "mcintosh_d", "mcintosh_e",
   "menhinick", "michaelis_menten_fit", "observed_otus", "osd", "pielou_e",
   "robbins", "shannon", "simpson", "simpson_e", "singles", "strong",
   "gini_index", "lladser_pe", "lladser_ci"]

/-- Python `repr` of a (quote-free) string, as interpolated by
`'Unknown metric provided: %r.' % metric`. -/
def pyRepr (s : String) : String := "'" ++ s ++ "'"

/-- The result of `pd.Series(results, index=ids)`: an ordered index (integer
positions from the default `RangeIndex` when no ids are given, else the
provided string ids) together with the values, in row order. -/
structure SeriesModel (V : Type) where
  index : List (Sum Nat String)
  values : List V
deriving DecidableEq

/-- Modelled from the spec: construction of the alpha Result Series
(`pd.Series(results, index=ids)`, external to the repository).  With
`ids=None` pandas assigns the default integer positions `0..n-1` (the src
docstring: "samples will be assigned integer identifiers in the order that
they were provided"); with ids given, their count must match the number of
values. -/
def mkSeries (values : List V) (ids : Option (List String)) :
    Except String (SeriesModel V) :=
  match ids with
  | some l =>
    if l.length = values.length then .ok ⟨l.map Sum.inr, values⟩
    else .error "Length of values does not match length of index"
  | none => .ok ⟨(List.range values.length).map Sum.inl, values⟩

/-- A `metric` argument on the alpha path: a name string or a unary callable
over one row plus kwargs. -/
inductive AlphaMetricArg (V ρ κ : Type) where
  | str (s : String)
  | fn (f : ρ → κ → V)

/-- Embedding of `alpha_diversity(metric, counts, ids, validate, **kwargs)`.
External collaborators are passed in as functions: `validateFn` models
`_validate_counts_matrix`; `impl` gives the registry implementation behind
each metric name; `faithSetup` models `_setup_faith_pd` (returning the
node-level counts and the branch lengths of type `β`); `faithPd` models
`_faith_pd` partially applied to the branch lengths.  Branch order follows
the source: `faith_pd` first, then a callable, then a registry name, else
the unknown-metric error. -/
def alphaDiversity
    (validateFn : List ρ → Option (List String) → Except String (List ρ))
    (impl : String → ρ → Kwargs τ σ γ → V)
    (faithSetup : List ρ → σ → τ → Bool → List ρ × β)
    (faithPd : ρ → β → Kwargs τ σ γ → V)
    (metric : AlphaMetricArg V ρ (Kwargs τ σ γ)) (counts : List ρ)
    (ids : Option (List String)) (validate : Bool) (kwargs : Kwargs τ σ γ) :
    Except String (SeriesModel V) :=
  match if validate then validateFn counts ids else .ok counts with
  | .error e => .error e
  | .ok counts1 =>
    match metric with
    | .str s =>
      if s = "faith_pd" then
        match getPhylogeneticKwargs kwargs with
        | .error e => .error e
        | .ok (o, t, kw2) =>
          let r := faithSetup counts1 o t validate
          mkSeries (r.1.map fun c => faithPd c r.2 kw2) ids
      else if alphaMetricNames.contains s then
        mkSeries (counts1.map fun c => impl s c kwargs) ids
      else .error ("Unknown metric provided: " ++ pyRepr s ++ ".")
    | .fn f => mkSeries (counts1.map fun c => f c kwargs) ids

/-- Lexicographic code-point comparison on character lists (the order Python
`sorted` uses on strings). -/
def charListLe : List Char → List Char → Bool
  | [], _ => true
  | _ :: _, [] => false
  | a :: as, b :: bs =>
    if a < b then true else if b < a then false else charListLe as bs

/-- Lexicographic order on strings by code points. -/
def strLe (s t : String) : Bool := charListLe s.data t.data

/-- Insertion step for the model of Python `sorted` on strings. -/
def insertSorted (x : String) : List String → List String
  | [] => [x]
  | y :: ys => if strLe x y then x :: y :: ys else y :: insertSorted x ys

/-- Model of Python `sorted` for lists of strings (insertion sort with the
lexicographic order). -/
def sortStrings (l : List String) : List String :=
  l.foldr insertSorted []

/-- Embedding of `get_beta_diversity_metrics()`:
`sorted(['unweighted_unifrac', 'weighted_unifrac'])`. -/
def getBetaDiversityMetrics : List String :=
  sortStrings ["unweighted_unifrac", "weighted_unifrac"]

/-- Observable steps of a `beta_diversity` call, in execution order, used to
state where the precondition checks sit relative to metric resolution. -/
inductive BEvent where
  | validateEv
  | phyloExtract
  | setupUnweighted
  | setupWeighted
  | bindCallable
  | passThrough
  | invokeBackend
deriving DecidableEq

/-- The skbio `DistanceMatrix` result, reduced to what the driver constructs:
the ordered id list and the condensed vector. -/
structure DistanceMatrixModel (V : Type) where
  dmIds : List String
  condensed : List V
deriving DecidableEq

/-- Length of the condensed form of an `n × n` distance matrix. -/
def condensedSize (n : Nat) : Nat := n * (n - 1) / 2

/-- Modelled from the spec: the Distance Structure constructor (§6
`make(condensed_or_square, ids)`, i.e. `skbio.stats.distance.DistanceMatrix`,
outside the provided source).  With ids given, their count must be the
number of observations of the condensed data; with `ids=None` the
identifiers default to the row positions rendered as strings (the src
docstring of `beta_diversity`: integer identifiers "where the type of the
identifiers will be str"). -/
def mkDistanceMatrix (d : List V) (ids : Option (List String)) :
    Except String (DistanceMatrixModel V) :=
  match ids with
  | some l =>
    if condensedSize l.length = d.length then .ok ⟨l, d⟩
    else .error "The number of IDs must match the number of rows/columns."
  | none =>
    match (List.range (d.length + 2)).find?
        (fun n => decide (2 ≤ n) && (condensedSize n == d.length)) with
    | some n => .ok ⟨(List.range n).map Nat.repr, d⟩
    | none => .error "The number of observations cannot be determined."

/-- Wrapping of the backend output into the Distance Structure
(`DistanceMatrix(distances, ids)`), propagating a backend failure. -/
def finishDM (r : Except String (List V)) (ids : Option (List String)) :
    Except String (DistanceMatrixModel V) :=
  match r with
  | .error e => .error e
  | .ok d => mkDistanceMatrix d ids

/-- A pluggable pairwise backend: `f(counts, metric=metric, **kwargs)`
returning a condensed vector. -/
def BetaBackend (V ρ τ σ γ : Type) : Type :=
  List ρ → MetricArg V ρ (Kwargs τ σ γ) → Kwargs τ σ γ → Except String (List V)

/-- Modelled from the spec: the default backend `scipy.spatial.distance.pdist`
as a `BetaBackend`; `strImpl` supplies scipy's own name-to-callable
resolution for string metrics. -/
def pdistBackend (strImpl : String → ρ → ρ → V) : BetaBackend V ρ τ σ γ :=
  fun counts m kw =>
    match m with
    | .str s =>
      .ok (condensedOf counts.length fun i j =>
        strImpl s (counts.getD i default) (counts.getD j default))
    | .fn f => .ok (pdist counts f kw)

/-- The validation step of `beta_diversity` (and its event). -/
def betaValidate
    (validateFn : List ρ → Option (List String) → Except String (List ρ))
    (validate : Bool) (counts : List ρ) (ids : Option (List String)) :
    List BEvent × Except String (List ρ) :=
  if validate then ([.validateEv], validateFn counts ids) else ([], .ok counts)

/-- The metric-resolution step of `beta_diversity`, in source order:
`'unweighted_unifrac'` and `'weighted_unifrac'` trigger the tree-aware
setup (`setupU`/`setupW`, which return a bound pairwise callable and the
node-level counts); a callable is bound to the kwargs by partial application
(after which the kwargs are cleared); any other string passes through
unchanged for the backend to interpret. -/
def betaResolve
    (normalizedDefault : Bool)
    (setupU : List ρ → σ → τ → (ρ → ρ → V) × List ρ)
    (setupW : Bool → List ρ → σ → τ → (ρ → ρ → V) × List ρ)
    (metric : MetricArg V ρ (Kwargs τ σ γ)) (counts : List ρ)
    (kwargs : Kwargs τ σ γ) :
    List BEvent ×
      Except String (MetricArg V ρ (Kwargs τ σ γ) × List ρ × Kwargs τ σ γ) :=
  match metric with
  | .str s =>
    if s = "unweighted_unifrac" then
      match getPhylogeneticKwargs kwargs with
      | .error e => ([.phyloExtract], .error e)
      | .ok (o, t, kw) =>
        let r := setupU counts o t
        ([.phyloExtract, .setupUnweighted],
          .ok (.fn fun a b _ => r.1 a b, r.2, kw))
    else if s = "weighted_unifrac" then
      let nrm := kwargs.normalized.getD normalizedDefault
      let kw0 : Kwargs τ σ γ := { kwargs with normalized := none }
      match getPhylogeneticKwargs kw0 with
      | .error e => ([.phyloExtract], .error e)
      | .ok (o, t, kw) =>
        let r := setupW nrm counts o t
        ([.phyloExtract, .setupWeighted],
          .ok (.fn fun a b _ => r.1 a b, r.2, kw))
    else ([.passThrough], .ok (.str s, counts, kwargs))
  | .fn f =>
    ([.bindCallable], .ok (.fn fun a b _ => f a b kwargs, counts, emptyKwargs))

/-- Embedding of
`beta_diversity(metric, counts, ids, validate, pairwise_func, id_pairs,
**kwargs)`, with the executed steps recorded as events.  Note the source
order: validation, then metric resolution, and only then the
`id_pairs`/`pairwise_func` mutual-exclusion check; when `id_pairs` is given
the backend is `_partial_pw` bound to `(ids, id_pairs)`, otherwise the
caller-supplied `pairwise_func` or the default backend. -/
def betaDiversity
    (validateFn : List ρ → Option (List String) → Except String (List ρ))
    (normalizedDefault : Bool)
    (setupU : List ρ → σ → τ → (ρ → ρ → V) × List ρ)
    (setupW : Bool → List ρ → σ → τ → (ρ → ρ → V) × List ρ)
    (defaultBackend : BetaBackend V ρ τ σ γ)
    (metric : MetricArg V ρ (Kwargs τ σ γ)) (counts : List ρ)
    (ids : Option (List String)) (validate : Bool)
    (pairwiseFunc : Option (BetaBackend V ρ τ σ γ))
    (idPairs : Option (List (String × String))) (kwargs : Kwargs τ σ γ) :
    List BEvent × Except String (DistanceMatrixModel V) :=
  match betaValidate validateFn validate counts ids with
  | (ev1, .error e) => (ev1, .error e)
  | (ev1, .ok counts1) =>
    match betaResolve normalizedDefault setupU setupW metric counts1 kwargs with
    | (ev2, .error e) => (ev1 ++ ev2, .error e)
    | (ev2, .ok (metric2, counts2, kwargs2)) =>
      match idPairs with
      | some ps =>
        match pairwiseFunc with
        | some _ =>
          (ev1 ++ ev2, .error "`pairwise_func` is not compatible with `id_pairs`")
        | none =>
          (ev1 ++ ev2 ++ [.invokeBackend],
            finishDM (partialPw ids ps counts2 metric2 kwargs2) ids)
      | none =>
        let backend := match pairwiseFunc with
          | some f => f
          | none => defaultBackend
        (ev1 ++ ev2 ++ [.invokeBackend],
          finishDM (backend counts2 metric2 kwargs2) ids)

-- smoke checks of the engine embedding
example : getBetaDiversityMetrics = ["unweighted_unifrac", "weighted_unifrac"] := by
  decide

example :
    alphaDiversity (V := ℤ) (τ := Unit) (σ := Unit) (γ := Unit) (β := Unit)
      (fun c _ => .ok c) (fun _ r _ => r) (fun c _ _ _ => (c, ())) (fun r _ _ => r)
      (.str "observed_otus") [(3 : ℤ), 5] none true ⟨none, none, none, none⟩ =
      .ok ⟨[Sum.inl 0, Sum.inl 1], [3, 5]⟩ := by decide

example :
    alphaDiversity (V := ℤ) (τ := Unit) (σ := Unit) (γ := Unit) (β := Unit)
      (fun c _ => .ok c) (fun _ r _ => r) (fun c _ _ _ => (c, ())) (fun r _ _ => r)
      (.str "nope") [(3 : ℤ)] none true ⟨none, none, none, none⟩ =
      .error "Unknown metric provided: 'nope'." := by decide

example :
    (betaDiversity (V := ℤ) (τ := Unit) (σ := Unit) (γ := Unit)
      (fun c _ => .ok c) true (fun c _ _ => ((fun _ _ => 0), c))
      (fun _ c _ _ => ((fun _ _ => 0), c)) (pdistBackend fun _ _ _ => 0)
      (.fn fun a b _ => a + b) [(5 : ℤ), 7] none false none none
      ⟨none, none, none, none⟩) =
    ([BEvent.bindCallable, BEvent.invokeBackend],
      .ok ⟨["0", "1"], [12]⟩) := by decide

lemma condensedOf_length (n : Nat) (M : Nat → Nat → V) :
    (condensedOf n M).length = condensedSize n := by
  unfold condensedOf condensedSize
  rw [List.length_flatMap]
  have h1 : List.map
      (List.length ∘ fun i => (List.range' (i + 1) (n - (i + 1))).map fun j => M i j)
      (List.range n) = List.map (fun i => n - (i + 1)) (List.range n) := by
    apply List.map_congr_left
    intro i _
    simp [List.length_range']
  rw [h1]
  have h2 : (List.map (fun i => n - (i + 1)) (List.range n)).sum =
      ∑ i in Finset.range n, (n - (i + 1)) := rfl
  rw [h2]
  have h3 : ∀ i ∈ Finset.range n, n - (i + 1) = n - 1 - i := by
    intro i _
    omega
  rw [Finset.sum_congr rfl h3, Finset.sum_range_reflect (fun i => i) n,
    Finset.sum_range_id]

lemma condensedSize_lt {a b : Nat} (ha : 1 ≤ a) (hab : a < b) :
    condensedSize a < condensedSize b := by
  obtain ⟨a', rfl⟩ : ∃ a', a = a' + 1 := ⟨a - 1, by omega⟩
  obtain ⟨b', rfl⟩ : ∃ b', b = b' + 1 := ⟨b - 1, by omega⟩
  unfold condensedSize
  have h1 : ((a' + 1) * a' + 2 * (a' + 1)) / 2 = (a' + 1) * a' / 2 + (a' + 1) :=
    Nat.add_mul_div_left _ _ (by omega)
  have h2 : (a' + 1) * a' + 2 * (a' + 1) ≤ (b' + 1) * b' := by
    have he : (a' + 1) * a' + 2 * (a' + 1) = (a' + 2) * (a' + 1) := by ring
    rw [he]
    exact Nat.mul_le_mul (by omega) (by omega)
  have h3 := Nat.div_le_div_right (c := 2) h2
  simp only [Nat.add_sub_cancel]
  omega

lemma self_le_condensedSize_succ {m : Nat} (hm : 2 ≤ m) :
    m ≤ condensedSize m + 1 := by
  unfold condensedSize
  have h1 : 2 * (m - 1) ≤ m * (m - 1) := Nat.mul_le_mul_right _ (by omega)
  have h2 := Nat.div_le_div_right (c := 2) h1
  have h3 : 2 * (m - 1) / 2 = m - 1 := Nat.mul_div_cancel_left _ (by omega)
  omega

lemma find?_eq_some_of_unique {α' : Type} (p : α' → Bool) (l : List α') (a : α')
    (ha : a ∈ l) (hpa : p a = true) (huniq : ∀ x ∈ l, p x = true → x = a) :
    l.find? p = some a := by
  induction l with
  | nil => cases ha
  | cons x t ih =>
    by_cases hx : p x = true
    · rw [List.find?_cons_of_pos t hx]
      exact congrArg some (huniq x (List.mem_cons_self x t) hx)
    · rw [List.find?_cons_of_neg t hx]
      rcases List.mem_cons.mp ha with rfl | hat
      · exact absurd hpa hx
      · exact ih hat fun y hy hpy => huniq y (List.mem_cons_of_mem x hy) hpy

lemma mkDistanceMatrix_none (d : List V) {m : Nat} (hm : 2 ≤ m)
    (hlen : d.length = condensedSize m) :
    mkDistanceMatrix d none = .ok ⟨(List.range m).map Nat.repr, d⟩ := by
  unfold mkDistanceMatrix
  have hfind : (List.range (d.length + 2)).find?
      (fun n => decide (2 ≤ n) && (condensedSize n == d.length)) = some m := by
    apply find?_eq_some_of_unique
    · rw [List.mem_range, hlen]
      have := self_le_condensedSize_succ hm
      omega
    · rw [hlen]
      simp [hm]
    · intro x hx hpx
      simp only [Bool.and_eq_true, decide_eq_true_eq, beq_iff_eq] at hpx
      obtain ⟨hx2, hxcs⟩ := hpx
      rw [hlen] at hxcs
      by_contra hne
      rcases Nat.lt_or_ge x m with hlt | hge
      · have := condensedSize_lt (by omega : 1 ≤ x) hlt
        omega
      · have hgt : m < x := by omega
        have := condensedSize_lt (by omega : 1 ≤ m) hgt
        omega
  rw [hfind]

lemma validate_step_ok
    {validateFn : List ρ → Option (List String) → Except String (List ρ)}
    {counts : List ρ} {ids : Option (List String)}
    (hval : validateFn counts ids = .ok counts) (validate : Bool) :
    (if validate then validateFn counts ids else .ok counts) = .ok counts := by
  cases validate <;> simp [hval]

lemma betaValidate_ok
    {validateFn : List ρ → Option (List String) → Except String (List ρ)}
    {counts : List ρ} {ids : Option (List String)}
    (hval : validateFn counts ids = .ok counts) (validate : Bool) :
    betaValidate validateFn validate counts ids =
      ((if validate then [BEvent.validateEv] else []), .ok counts) := by
  cases validate <;> simp [betaValidate, hval]

lemma invokeBackend_not_mem_betaValidate
    (validateFn : List ρ → Option (List String) → Except String (List ρ))
    (validate : Bool) (counts : List ρ) (ids : Option (List String)) :
    BEvent.invokeBackend ∉ (betaValidate validateFn validate counts ids).1 := by
  cases validate <;> simp [betaValidate]

lemma invokeBackend_not_mem_betaResolve
    (normalizedDefault : Bool)
    (setupU : List ρ → σ → τ → (ρ → ρ → V) × List ρ)
    (setupW : Bool → List ρ → σ → τ → (ρ → ρ → V) × List ρ)
    (metric : MetricArg V ρ (Kwargs τ σ γ)) (counts : List ρ)
    (kwargs : Kwargs τ σ γ) :
    BEvent.invokeBackend ∉
      (betaResolve normalizedDefault setupU setupW metric counts kwargs).1 := by
  cases metric with
  | fn f => simp [betaResolve]
  | str s =>
    simp only [betaResolve]
    by_cases h1 : s = "unweighted_unifrac"
    · rw [if_pos h1]
      cases hg : getPhylogeneticKwargs (τ := τ) (σ := σ) (γ := γ) kwargs with
      | error e => simp
      | ok out =>
        obtain ⟨o, t, kw⟩ := out
        simp
    · rw [if_neg h1]
      by_cases h2 : s = "weighted_unifrac"
      · rw [if_pos h2]
        cases hg : getPhylogeneticKwargs
            (τ := τ) (σ := σ) (γ := γ) { kwargs with normalized := none } with
        | error e => simp
        | ok out =>
          obtain ⟨o, t, kw⟩ := out
          simp
      · rw [if_neg h2]
        simp

/-- The result index of an alpha Result Series: the provided ids, or the
default integer positions. -/
def defaultSeriesIndex (ids : Option (List String)) (n : Nat) :
    List (Sum Nat String) :=
  match ids with
  | some l => l.map Sum.inr
  | none => (List.range n).map Sum.inl

/-- C3 (amended): supplying both `pairwise_func` and `id_pairs` raises the
mutual-exclusion input error, but only after validation and metric
resolution have run; the error does come before any pairwise computation
(no backend invocation happens). -/
theorem betaDiversity_mutual_exclusion_error
    (validateFn : List ρ → Option (List String) → Except String (List ρ))
    (normalizedDefault : Bool)
    (setupU : List ρ → σ → τ → (ρ → ρ → V) × List ρ)
    (setupW : Bool → List ρ → σ → τ → (ρ → ρ → V) × List ρ)
    (defaultBackend : BetaBackend V ρ τ σ γ)
    (metric : MetricArg V ρ (Kwargs τ σ γ)) (counts : List ρ)
    (ids : Option (List String)) (validate : Bool)
    (pf : BetaBackend V ρ τ σ γ) (ps : List (String × String))
    (kwargs : Kwargs τ σ γ)
    {ev1 ev2 : List BEvent} {counts1 : List ρ}
    {m2 : MetricArg V ρ (Kwargs τ σ γ)} {c2 : List ρ} {k2 : Kwargs τ σ γ}
    (hval : betaValidate validateFn validate counts ids = (ev1, .ok counts1))
    (hres : betaResolve normalizedDefault setupU setupW metric counts1 kwargs =
      (ev2, .ok (m2, c2, k2))) :
    betaDiversity validateFn normalizedDefault setupU setupW defaultBackend
        metric counts ids validate (some pf) (some ps) kwargs =
      (ev1 ++ ev2, .error "`pairwise_func` is not compatible with `id_pairs`") ∧
    BEvent.invokeBackend ∉ ev1 ++ ev2 := by
  constructor
  · simp only [betaDiversity, hval, hres]
  · intro hmem
    rcases List.mem_append.mp hmem with h | h
    · have hnm := invokeBackend_not_mem_betaValidate validateFn validate counts ids
      rw [hval] at hnm
      exact hnm h
    · have hnm := invokeBackend_not_mem_betaResolve normalizedDefault setupU setupW
        metric counts1 kwargs
      rw [hres] at hnm
      exact hnm h

/-- C3 counterexample: with `metric='unweighted_unifrac'` and both
`pairwise_func` and `id_pairs` supplied, the mutual-exclusion input error is
raised, but the tree-aware setup has already been performed before it: the
check is not reached before metric resolution. -/
theorem betaDiversity_not_fail_fast_counterexample :
    (betaDiversity (V := ℤ) (τ := Unit) (σ := Unit) (γ := Unit)
      (fun c _ => .ok c) true (fun c _ _ => ((fun _ _ => 0), c))
      (fun _ c _ _ => ((fun _ _ => 0), c)) (pdistBackend fun _ _ _ => 0)
      (.str "unweighted_unifrac") [(0 : ℤ), 0] (some ["0", "1"]) true
      (some (pdistBackend fun _ _ _ => 0)) (some [("0", "1")])
      ⟨some (), some (), none, none⟩).2 =
      .error "`pairwise_func` is not compatible with `id_pairs`" ∧
    BEvent.setupUnweighted ∈
      (betaDiversity (V := ℤ) (τ := Unit) (σ := Unit) (γ := Unit)
        (fun c _ => .ok c) true (fun c _ _ => ((fun _ _ => 0), c))
        (fun _ c _ _ => ((fun _ _ => 0), c)) (pdistBackend fun _ _ _ => 0)
        (.str "unweighted_unifrac") [(0 : ℤ), 0] (some ["0", "1"]) true
        (some (pdistBackend fun _ _ _ => 0)) (some [("0", "1")])
        ⟨some (), some (), none, none⟩).1 := by decide

/-- C3 witness: the mutual-exclusion theorem applied at a concrete call. -/
theorem betaDiversity_mutual_exclusion_error_witness :
    betaDiversity (V := ℤ) (τ := Unit) (σ := Unit) (γ := Unit)
      (fun c _ => .ok c) true (fun c _ _ => ((fun _ _ => 0), c))
      (fun _ c _ _ => ((fun _ _ => 0), c)) (pdistBackend fun _ _ _ => 0)
      (.fn fun _ _ _ => 0) [(0 : ℤ), 0] (some ["0", "1"]) false
      (some (pdistBackend fun _ _ _ => 0)) (some [("0", "1")])
      ⟨none, none, none, none⟩ =
      ([] ++ [BEvent.bindCallable],
        .error "`pairwise_func` is not compatible with `id_pairs`") ∧
    BEvent.invokeBackend ∉ ([] : List BEvent) ++ [BEvent.bindCallable] :=
  betaDiversity_mutual_exclusion_error _ _ _ _ _ _ _ _ _ _ _ _ rfl rfl

/-- C4 (amended): for every registry metric name other than `faith_pd` (the
one registry name that additionally demands `otu_ids`/`tree` keyword
arguments), `alpha_diversity` returns one scalar per row of the validated
counts, in row order, indexed by the provided ids or by the integer
positions `0..n-1` when ids are absent. -/
theorem alphaDiversity_registry_series
    (validateFn : List ρ → Option (List String) → Except String (List ρ))
    (impl : String → ρ → Kwargs τ σ γ → V)
    (faithSetup : List ρ → σ → τ → Bool → List ρ × β)
    (faithPd : ρ → β → Kwargs τ σ γ → V)
    {m : String} (counts : List ρ) (ids : Option (List String))
    (validate : Bool) (kwargs : Kwargs τ σ γ)
    (hm : m ∈ alphaMetricNames) (hne : m ≠ "faith_pd")
    (hval : validateFn counts ids = .ok counts)
    (hlen : ∀ l, ids = some l → l.length = counts.length) :
    alphaDiversity validateFn impl faithSetup faithPd (.str m) counts ids
        validate kwargs =
      .ok ⟨defaultSeriesIndex ids counts.length,
           counts.map fun c => impl m c kwargs⟩ := by
  have hc : alphaMetricNames.contains m = true := List.elem_iff.mpr hm
  simp only [alphaDiversity, validate_step_ok hval validate]
  rw [if_neg hne, if_pos hc]
  cases ids with
  | none =>
    simp only [mkSeries, defaultSeriesIndex, List.length_map]
  | some l =>
    simp only [mkSeries, defaultSeriesIndex]
    rw [List.length_map, if_pos (hlen l rfl)]

/-- C4 counterexample: `'faith_pd'` is a Metric Registry name, yet
`alpha_diversity('faith_pd', X)` on a valid matrix without tree keyword
arguments raises an input error instead of returning a Result Series. -/
theorem alphaDiversity_faith_pd_counterexample :
    "faith_pd" ∈ alphaMetricNames ∧
    alphaDiversity (V := ℤ) (τ := Unit) (σ := Unit) (γ := Unit) (β := Unit)
      (fun c _ => .ok c) (fun _ r _ => r) (fun c _ _ _ => (c, ())) (fun r _ _ => r)
      (.str "faith_pd") [(3 : ℤ)] none true ⟨none, none, none, none⟩ =
      .error "otu_ids is required for phylogenetic diversity metrics" := by decide

/-- C4 witness: a concrete registry metric over a two-row matrix. -/
theorem alphaDiversity_registry_series_witness :
    alphaDiversity (V := ℤ) (τ := Unit) (σ := Unit) (γ := Unit) (β := Unit)
      (fun c _ => .ok c) (fun _ r _ => r) (fun c _ _ _ => (c, ())) (fun r _ _ => r)
      (.str "observed_otus") [(3 : ℤ), 5] none true ⟨none, none, none, none⟩ =
      .ok ⟨defaultSeriesIndex none 2, [3, 5]⟩ :=
  alphaDiversity_registry_series _ _ _ _ _ _ _ _ (by decide) (by decide) rfl
    (fun l h => nomatch h)

/-- C5: a string metric that is neither `faith_pd` nor a registry name makes
`alpha_diversity` fail with the input error naming the offending value, for
every possible registry implementation and tree setup (so no metric
computation can have taken place). -/
theorem alphaDiversity_unknown_metric_error
    (validateFn : List ρ → Option (List String) → Except String (List ρ))
    (impl : String → ρ → Kwargs τ σ γ → V)
    (faithSetup : List ρ → σ → τ → Bool → List ρ × β)
    (faithPd : ρ → β → Kwargs τ σ γ → V)
    {s : String} (counts : List ρ) (ids : Option (List String))
    (validate : Bool) (kwargs : Kwargs τ σ γ)
    (hs : s ∉ alphaMetricNames)
    (hval : validateFn counts ids = .ok counts) :
    alphaDiversity validateFn impl faithSetup faithPd (.str s) counts ids
        validate kwargs =
      .error ("Unknown metric provided: " ++ pyRepr s ++ ".") := by
  have hne : s ≠ "faith_pd" := by
    intro he
    exact hs (he ▸ (by decide : "faith_pd" ∈ alphaMetricNames))
  have hc : ¬(alphaMetricNames.contains s = true) := fun h =>
    hs (List.elem_iff.mp h)
  simp only [alphaDiversity, validate_step_ok hval validate]
  rw [if_neg hne, if_neg hc]

/-- C5 witness: a concrete unknown metric name. -/
theorem alphaDiversity_unknown_metric_error_witness :
    alphaDiversity (V := ℤ) (τ := Unit) (σ := Unit) (γ := Unit) (β := Unit)
      (fun c _ => .ok c) (fun _ r _ => r) (fun c _ _ _ => (c, ())) (fun r _ _ => r)
      (.str "not_a_metric") [(3 : ℤ)] none true ⟨none, none, none, none⟩ =
      .error ("Unknown metric provided: " ++ pyRepr "not_a_metric" ++ ".") :=
  alphaDiversity_unknown_metric_error _ _ _ _ _ _ _ _ (by decide) rfl

/-- C9 (amended): with ids absent, the Distance Structure of
`beta_diversity` is keyed by the row positions rendered as display strings,
while the Result Series of `alpha_diversity` is indexed by the integer row
positions `0..n-1` (not display strings). -/
theorem defaultIds_beta_str_alpha_int
    (validateFn : List ρ → Option (List String) → Except String (List ρ))
    (impl : String → ρ → Kwargs τ σ γ → V)
    (faithSetup : List ρ → σ → τ → Bool → List ρ × β)
    (faithPd : ρ → β → Kwargs τ σ γ → V)
    (normalizedDefault : Bool)
    (setupU : List ρ → σ → τ → (ρ → ρ → V) × List ρ)
    (setupW : Bool → List ρ → σ → τ → (ρ → ρ → V) × List ρ)
    (strImpl : String → ρ → ρ → V)
    (f : ρ → ρ → Kwargs τ σ γ → V) (g : ρ → Kwargs τ σ γ → V)
    (counts : List ρ) (validate : Bool) (kwargs : Kwargs τ σ γ)
    (hval : validateFn counts none = .ok counts)
    (h2 : 2 ≤ counts.length) :
    (betaDiversity validateFn normalizedDefault setupU setupW
        (pdistBackend strImpl) (.fn f) counts none validate none none
        kwargs).2 =
      .ok ⟨(List.range counts.length).map Nat.repr,
        pdist counts (fun a b (_ : Kwargs τ σ γ) => f a b kwargs)
          emptyKwargs⟩ ∧
    alphaDiversity validateFn impl faithSetup faithPd (.fn g) counts none
        validate kwargs =
      .ok ⟨(List.range counts.length).map Sum.inl,
        counts.map fun c => g c kwargs⟩ := by
  constructor
  · simp only [betaDiversity, betaValidate_ok hval validate, betaResolve,
      finishDM, pdistBackend]
    exact mkDistanceMatrix_none _ h2 (condensedOf_length _ _)
  · simp only [alphaDiversity, validate_step_ok hval validate, mkSeries,
      List.length_map]

/-- C9 counterexample: with ids absent, the alpha Result Series is indexed
by the integer position 0, which is not the display string rendering of the
position. -/
theorem alpha_default_index_not_strings_counterexample :
    alphaDiversity (V := ℤ) (τ := Unit) (σ := Unit) (γ := Unit) (β := Unit)
      (fun c _ => .ok c) (fun _ r _ => r) (fun c _ _ _ => (c, ())) (fun r _ _ => r)
      (.fn fun r _ => r) [(3 : ℤ)] none true ⟨none, none, none, none⟩ =
      .ok ⟨[Sum.inl 0], [3]⟩ ∧
    ([Sum.inl 0] : List (Sum Nat String)) ≠ [Sum.inr (Nat.repr 0)] := by decide

/-- C9 witness: the default-identifier theorem applied at a concrete
two-row matrix. -/
theorem defaultIds_beta_str_alpha_int_witness :
    (betaDiversity (V := ℤ) (τ := Unit) (σ := Unit) (γ := Unit)
        (fun c _ => .ok c) true (fun c _ _ => ((fun _ _ => 0), c))
        (fun _ c _ _ => ((fun _ _ => 0), c)) (pdistBackend fun _ _ _ => 0)
        (.fn fun a b _ => a + b) [(5 : ℤ), 7] none false none none
        ⟨none, none, none, none⟩).2 =
      .ok ⟨(List.range 2).map Nat.repr,
        pdist [(5 : ℤ), 7] (fun a b (_ : Kwargs Unit Unit Unit) => a + b)
          (emptyKwargs : Kwargs Unit Unit Unit)⟩ ∧
    alphaDiversity (V := ℤ) (τ := Unit) (σ := Unit) (γ := Unit) (β := Unit)
        (fun c _ => .ok c) (fun _ r _ => r) (fun c _ _ _ => (c, ()))
        (fun r _ _ => r) (.fn fun r _ => r) [(5 : ℤ), 7] none false
        ⟨none, none, none, none⟩ =
      .ok ⟨(List.range 2).map Sum.inl, [5, 7]⟩ :=
  defaultIds_beta_str_alpha_int _ _ _ _ _ _ _ _ _ _ _ _ _ rfl (by decide)

/-- C10: `get_beta_diversity_metrics` always returns exactly the two-element
sorted list, and any string metric outside it is passed through unchanged to
the pairwise backend rather than rejected (so the listed names are a strict
subset of the accepted metric strings). -/
theorem getBetaDiversityMetrics_sorted_and_passthrough :
    getBetaDiversityMetrics = ["unweighted_unifrac", "weighted_unifrac"] ∧
    ∀ (V ρ τ σ γ : Type) [AddCommMonoid V] [Inhabited ρ]
      (validateFn : List ρ → Option (List String) → Except String (List ρ))
      (normalizedDefault : Bool)
      (setupU : List ρ → σ → τ → (ρ → ρ → V) × List ρ)
      (setupW : Bool → List ρ → σ → τ → (ρ → ρ → V) × List ρ)
      (defaultBackend : BetaBackend V ρ τ σ γ) (s : String)
      (counts : List ρ) (ids : Option (List String)) (validate : Bool)
      (kwargs : Kwargs τ σ γ),
      s ∉ getBetaDiversityMetrics →
      validateFn counts ids = .ok counts →
      betaDiversity validateFn normalizedDefault setupU setupW defaultBackend
          (.str s) counts ids validate none none kwargs =
        ((if validate then [BEvent.validateEv] else []) ++ [BEvent.passThrough]
            ++ [BEvent.invokeBackend],
          finishDM (defaultBackend counts (.str s) kwargs) ids) := by
  constructor
  · decide
  · intro V ρ τ σ γ _ _ validateFn normalizedDefault setupU setupW defaultBackend
      s counts ids validate kwargs hs hval
    have hlist : getBetaDiversityMetrics =
        ["unweighted_unifrac", "weighted_unifrac"] := by decide
    rw [hlist] at hs
    have hne1 : s ≠ "unweighted_unifrac" := by
      intro he
      exact hs (he ▸ List.mem_cons_self _ _)
    have hne2 : s ≠ "weighted_unifrac" := by
      intro he
      refine hs (he ▸ ?_)
      exact List.mem_cons_of_mem _ (List.mem_cons_self _ _)
    simp only [betaDiversity, betaValidate_ok hval validate, betaResolve,
      if_neg hne1, if_neg hne2]

/-- C10 witness: the pass-through equation at a concrete scipy-style metric
name (`braycurtis`), together with the concrete metric list. -/
theorem getBetaDiversityMetrics_passthrough_witness :
    getBetaDiversityMetrics = ["unweighted_unifrac", "weighted_unifrac"] ∧
    betaDiversity (V := ℤ) (τ := Unit) (σ := Unit) (γ := Unit)
        (fun c _ => .ok c) true (fun c _ _ => ((fun _ _ => 0), c))
        (fun _ c _ _ => ((fun _ _ => 0), c)) (pdistBackend fun _ _ _ => 1)
        (.str "braycurtis") [(5 : ℤ), 7] none false none none
        ⟨none, none, none, none⟩ =
      ((if false then [BEvent.validateEv] else []) ++ [BEvent.passThrough]
          ++ [BEvent.invokeBackend],
        finishDM ((pdistBackend (τ := Unit) (σ := Unit) (γ := Unit)
          (fun _ _ _ => (1 : ℤ))) [(5 : ℤ), 7] (.str "braycurtis")
          ⟨none, none, none, none⟩) none) :=
  ⟨getBetaDiversityMetrics_sorted_and_passthrough.1,
    getBetaDiversityMetrics_sorted_and_passthrough.2 ℤ ℤ Unit Unit Unit
      _ _ _ _ _ "braycurtis" _ _ _ _ (by decide) rfl⟩

end SkbioDriver
